import Mathlib

/-!
Verification of the dynamic chunked parallel-for scheduler in
`src/parallel.c` (CoreParallel-C).

The worker loop and the shared cursor are embedded as a small-step state
machine: a system state holds the shared cursor (`next`), the status of
every worker (about to claim, holding a claimed chunk, or exited) and a
log of all indices for which the callback has been invoked so far.  A
schedule — an arbitrary list of worker ordinals — drives the interleaving;
each scheduled step performs one atomic action of that worker, so every
concurrent interleaving of the real program corresponds to some schedule.

The dispatcher `parallel_for` is embedded as a pure function of its
arguments and of an environment record capturing the host facts it reads
(`sysconf`, `sched_getaffinity`, allocation and `pthread_create`
outcomes).
-/

set_option maxRecDepth 100000

namespace CoreParallel

/-- The list of integers `[a, a+1, ..., b-1]` (empty when `b ≤ a`);
used to state which indices a chunk or a whole call covers. -/
def intRange (a b : Int) : List Int :=
  (List.range (b - a).toNat).map (fun k => a + Int.ofNat k)

/-- `PARALLEL_OPT_PIN_CORE = 1 << 0` from `include/parallel.h`. -/
def PARALLEL_OPT_PIN_CORE : Nat := 1

/-- `PARALLEL_OPT_REALTIME = 1 << 1` from `include/parallel.h`. -/
def PARALLEL_OPT_REALTIME : Nat := 2

/-- `branchless_min_long` from `src/parallel.c` (the portable `#else`
branch; the inline-assembly branches compute the same minimum). -/
def branchless_min_long (a b : Int) : Int :=
  if a < b then a else b

/-- `execute_chunk` from `src/parallel.c`: the list of indices the body is
invoked on, in increasing order, for a claimed chunk `[start, stop)`. -/
def execute_chunk (start stop : Int) : List Int :=
  if start ≥ stop then [] else intRange start stop

/-- Status of one worker thread in the claim loop of `worker_main`. -/
inductive WStatus where
  /-- about to perform the atomic fetch-and-add on the shared cursor -/
  | running : WStatus
  /-- has claimed the chunk `[start, stop)` and not yet executed it -/
  | executing (start stop : Int) : WStatus
  /-- has observed `start ≥ end` and left the loop -/
  | exited : WStatus
deriving DecidableEq

/-- Shared state of one `parallel_for` invocation: the cursor `next`
(the `volatile long next` of `parallel_for`), the status of each worker,
and the indices for which the body has been invoked so far. -/
structure SysState where
  next : Int
  workers : List WStatus
  log : List Int
deriving DecidableEq

/-- Two's-complement wrap of a 64-bit signed `long`: the value the
machine stores after an addition overflows (the `lock xaddq` /
`ldaxr`/`stlxr` sequences and the C `start + chunk` of `worker_main`
all compute modulo `2^64`, reinterpreted as a signed 64-bit integer). -/
def wrap (x : Int) : Int :=
  (x + 2 ^ 63) % 2 ^ 64 - 2 ^ 63

/-- `atomic_fetch_add_long` from `src/parallel.c`: returns the
pre-increment value together with the updated cursor; the addition is
the machine's wrapping 64-bit add. -/
def atomic_fetch_add_long (ptr inc : Int) : Int × Int :=
  (ptr, wrap (ptr + inc))

/-- One atomic step of worker `t` against the shared state, following the
loop body of `worker_main`: a running worker performs the fetch-and-add
and either exits (`start ≥ end`) or holds the chunk
`[start, min (start+chunk) end)`; a worker holding a chunk executes it,
appending the chunk's indices to the log.  A step of an exited worker (or
an out-of-range ordinal) changes nothing. -/
def worker_step (end_ chunk : Int) (s : SysState) (t : Nat) : SysState :=
  match s.workers.getD t .exited with
  | .running =>
      let r := atomic_fetch_add_long s.next chunk
      if r.1 ≥ end_ then
        { s with next := r.2, workers := s.workers.set t .exited }
      else
        { s with next := r.2,
                 workers := s.workers.set t
                   (.executing r.1 (branchless_min_long (wrap (r.1 + chunk)) end_)) }
  | .executing a b =>
      { s with workers := s.workers.set t .running,
               log := s.log ++ execute_chunk a b }
  | .exited => s

/-- Initial state of an invocation: cursor at `begin`, `nthreads` workers
entering the loop, no invocations yet. -/
def initState (begin_ : Int) (nthreads : Nat) : SysState :=
  { next := begin_, workers := List.replicate nthreads .running, log := [] }

/-- Run the system under a schedule (a list of worker ordinals, each entry
one atomic step of that worker). -/
def runSched (end_ chunk : Int) (s : SysState) : List Nat → SysState
  | [] => s
  | t :: ts => runSched end_ chunk (worker_step end_ chunk s t) ts

/-- All workers have left the claim loop (the state in which every
`pthread_join` has returned). -/
def allExited (s : SysState) : Bool :=
  s.workers.all fun w => decide (w = .exited)

/-- A schedule is productive from `s` when every scheduled step is taken
by a worker that has not yet exited (real threads take no steps after
leaving the loop, so the real interleavings are the productive ones). -/
def productiveSched (end_ chunk : Int) (s : SysState) : List Nat → Bool
  | [] => true
  | t :: ts =>
      !(decide (s.workers.getD t .exited = .exited)) &&
        productiveSched end_ chunk (worker_step end_ chunk s t) ts

/-- The indices of a claimed-but-not-yet-executed chunk held by a worker. -/
def contrib : WStatus → List Int
  | .executing a b => execute_chunk a b
  | .running => []
  | .exited => []

/-- All indices claimed but not yet executed across the worker pool. -/
def pendingOf : List WStatus → List Int
  | [] => []
  | w :: ws => contrib w ++ pendingOf ws

/-- Number of workers that have left the claim loop. -/
def exitedCount : List WStatus → Nat
  | [] => 0
  | w :: ws => (if w = WStatus.exited then 1 else 0) + exitedCount ws

/-! ## Dispatcher embedding -/

/-- Size of a `cpu_set_t` in bits (glibc `CPU_SETSIZE`); the enumeration
loop in `parallel_for` scans cpu ids `0 .. CPU_SETSIZE-1`. -/
def CPU_SETSIZE : Nat := 1024

/-- Host facts `parallel_for` reads at call time: the raw
`sysconf(_SC_NPROCESSORS_ONLN)` result, whether `sched_getaffinity`
succeeds and what mask it reports (`CPU_ISSET` per cpu id), and the
outcomes of `malloc` (core-id list), the two `calloc` calls (thread
handles and descriptors) and each `pthread_create` call. -/
structure Env where
  sysconf_nprocessors_onln : Int
  sched_getaffinity_ok : Bool
  affinity_mask : List Bool
  malloc_core_ids_ok : Bool
  calloc_ok : Bool
  pthread_create_ok : Nat → Bool

/-- `CPU_ISSET(cpu, mask)`. -/
def cpuIsSet (mask : List Bool) (cpu : Nat) : Bool :=
  mask.getD cpu false

/-- The enumeration loop of `parallel_for` (lines 220–225): cpu ids set in
the affinity mask, scanned in ascending order over `0 .. CPU_SETSIZE-1`. -/
def enumerated_core_ids (mask : List Bool) : List Nat :=
  (List.range CPU_SETSIZE).filter (cpuIsSet mask)

/-- `CPU_COUNT(&affinity_mask)`: the number of cpu ids set in the mask. -/
def cpu_count (mask : List Bool) : Nat :=
  (enumerated_core_ids mask).length

/-- `sys_ncores` after its clamp: `sysconf(_SC_NPROCESSORS_ONLN)`, forced
to at least 1. -/
def sys_ncores (env : Env) : Int :=
  if env.sysconf_nprocessors_onln < 1 then 1 else env.sysconf_nprocessors_onln

/-- The `core_ids` array built by `parallel_for`: non-empty only when
pinning was requested, `sched_getaffinity` succeeded, the mask has at
least one cpu set, and the `malloc` succeeded; then it holds the set cpu
ids in ascending order. -/
def core_ids (env : Env) (options : Nat) : List Nat :=
  if options &&& PARALLEL_OPT_PIN_CORE ≠ 0 ∧ env.sched_getaffinity_ok = true ∧
      0 < cpu_count env.affinity_mask ∧ env.malloc_core_ids_ok = true then
    enumerated_core_ids env.affinity_mask
  else
    []

/-- `core_count` after the harvesting block of `parallel_for`. -/
def core_count (env : Env) (options : Nat) : Nat :=
  (core_ids env options).length

/-- `active_cores` (lines 235–236): the harvested core count when
positive, otherwise the online processor count; forced to at least 1. -/
def active_cores (env : Env) (options : Nat) : Int :=
  let ac : Int :=
    if 0 < core_count env options then (core_count env options : Int)
    else sys_ncores env
  if ac < 1 then 1 else ac

/-- The effective thread count (lines 237–241): `nthreads ≤ 0` defaults to
`active_cores`; with pinning requested, `nthreads` is capped at
`active_cores`. -/
def effective_nthreads (env : Env) (nthreads : Int) (options : Nat) : Int :=
  let n := if nthreads ≤ 0 then active_cores env options else nthreads
  if options &&& PARALLEL_OPT_PIN_CORE ≠ 0 ∧ active_cores env options < n then
    active_cores env options
  else n

/-- `chosen_core` for worker ordinal `t` (lines 249–256): `-1` without
pinning; with pinning, entry `t % core_count` of the harvested core-id
list, falling back to `t % active_cores` when the list is empty. -/
def chosen_core (env : Env) (options : Nat) (t : Nat) : Int :=
  if options &&& PARALLEL_OPT_PIN_CORE ≠ 0 then
    if 0 < core_count env options then
      ((core_ids env options).getD (t % core_count env options) 0 : Int)
    else if 0 < active_cores env options then
      (t : Int) % active_cores env options
    else
      -1
  else
    -1

/-- The chunk normalization of line 197: `if (chunk <= 0) chunk = 1`. -/
def norm_chunk (chunk : Int) : Int :=
  if chunk ≤ 0 then 1 else chunk

/-- Index of the first failing `pthread_create` among workers
`0 .. n-1`, if any. -/
def first_spawn_failure (env : Env) (n : Nat) : Option Nat :=
  (List.range n).find? fun t => !(env.pthread_create_ok t)

/-- Observable outcome of one `parallel_for` call: the returned status,
the effective thread count resolved by the dispatcher, the number of
workers actually created (each of which is joined before return), and the
core assignments handed to the created workers. -/
structure PForResult where
  status : Int
  effThreads : Nat
  spawned : Nat
  effChunk : Int
  cores : List Int
deriving DecidableEq

/-- `parallel_for` from `src/parallel.c` as a function of its arguments
and the environment.  `body_null` is whether the `body` pointer is NULL.
Validation (line 196) returns `-1`; `calloc` failure (line 245) returns
`-2` with no worker created; a `pthread_create` failure at ordinal `k`
(lines 291–297) joins the `k` already-created workers and returns `-3`;
otherwise all workers are created, joined, and `0` is returned. -/
def parallel_for (begin_ end_ chunk nthreads : Int) (options : Nat)
    (body_null : Bool) (env : Env) : PForResult :=
  if body_null = true ∨ end_ ≤ begin_ then
    { status := -1, effThreads := 0, spawned := 0, effChunk := chunk, cores := [] }
  else
    let c := norm_chunk chunk
    let n := (effective_nthreads env nthreads options).toNat
    if env.calloc_ok = false then
      { status := -2, effThreads := n, spawned := 0, effChunk := c, cores := [] }
    else
      match first_spawn_failure env n with
      | some k =>
          { status := -3, effThreads := n, spawned := k, effChunk := c,
            cores := (List.range k).map (chosen_core env options) }
      | none =>
          { status := 0, effThreads := n, spawned := n, effChunk := c,
            cores := (List.range n).map (chosen_core env options) }

/-- The "eligible core count" in the words of the spec sentence behind
claim C2 — resolved from the process's affinity mask, falling back to the
online processor count only if the mask cannot be read, irrespective of
which options are requested.  Stated here only to be compared against the
code's `effective_nthreads`. -/
def claimed_eligible_cores (env : Env) : Int :=
  if env.sched_getaffinity_ok = true then (cpu_count env.affinity_mask : Int)
  else sys_ncores env

/-- Concrete host: 4 online processors, full 4-cpu affinity mask, all
allocations and spawns succeed. -/
def envDefault : Env :=
  { sysconf_nprocessors_onln := 4
    sched_getaffinity_ok := true
    affinity_mask := [true, true, true, true]
    malloc_core_ids_ok := true
    calloc_ok := true
    pthread_create_ok := fun _ => true }

/-- Concrete host: 4 online processors but the process is restricted to 2
cpus by its affinity mask; everything succeeds. -/
def envMasked : Env :=
  { sysconf_nprocessors_onln := 4
    sched_getaffinity_ok := true
    affinity_mask := [true, true]
    malloc_core_ids_ok := true
    calloc_ok := true
    pthread_create_ok := fun _ => true }

/-- Concrete host where the second `pthread_create` call fails. -/
def envSpawnFail : Env :=
  { sysconf_nprocessors_onln := 2
    sched_getaffinity_ok := true
    affinity_mask := [true, true]
    malloc_core_ids_ok := true
    calloc_ok := true
    pthread_create_ok := fun t => decide (t < 1) }

/-- Concrete host where `calloc` fails. -/
def envCallocFail : Env :=
  { sysconf_nprocessors_onln := 2
    sched_getaffinity_ok := true
    affinity_mask := [true, true]
    malloc_core_ids_ok := true
    calloc_ok := false
    pthread_create_ok := fun _ => true }

/-- Concrete host: affinity mask {1, 2} read successfully, but the
`malloc` of the core-id list fails. -/
def envMallocFail : Env :=
  { sysconf_nprocessors_onln := 4
    sched_getaffinity_ok := true
    affinity_mask := [false, true, true]
    malloc_core_ids_ok := false
    calloc_ok := true
    pthread_create_ok := fun _ => true }

/-- Concrete host with the non-contiguous affinity mask {1, 3, 4}. -/
def envMask5 : Env :=
  { sysconf_nprocessors_onln := 8
    sched_getaffinity_ok := true
    affinity_mask := [false, true, false, true, true]
    malloc_core_ids_ok := true
    calloc_ok := true
    pthread_create_ok := fun _ => true }

/-- Concrete host where the third `pthread_create` call fails. -/
def envSpawnFail2 : Env :=
  { sysconf_nprocessors_onln := 4
    sched_getaffinity_ok := true
    affinity_mask := [true, true, true, true]
    malloc_core_ids_ok := true
    calloc_ok := true
    pthread_create_ok := fun t => decide (t < 2) }

/-- Schedule exhibiting 64-bit cursor wrap-around with two workers over
`[2^63 − 10, 2^63 − 5)` and chunk 8: worker 0 claims the whole range;
worker 1's exit claim pushes the cursor past `LONG_MAX`, wrapping it to
`−2^63 + 6`; worker 0 then re-enters the range from the bottom
(`2305843009213693950 = 2^61 − 2` claim/execute pairs climb the cursor
back up to `2^63 − 2`) and finally exits. -/
def schedOverflow : List Nat :=
  [0, 1, 0, 0, 0] ++ (List.replicate (2 * 2305843009213693950) 0 ++ [0])

/-- The invocation log accumulated by the first five steps of
`schedOverflow`: the whole range once, then the first wrapped chunk
`[−2^63 + 6, −2^63 + 14)` of out-of-range indices. -/
def logPrefixOverflow : List Int :=
  intRange (2 ^ 63 - 10) (2 ^ 63 - 5) ++ intRange (-(2 ^ 63) + 6) (-(2 ^ 63) + 14)

/-! ## Range lemmas -/

theorem intRange_eq_nil {a b : Int} (h : b ≤ a) : intRange a b = [] := by
  unfold intRange
  have hz : (b - a).toNat = 0 := by omega
  rw [hz]
  rfl

theorem intRange_append {a b c : Int} (hab : a ≤ b) (hbc : b ≤ c) :
    intRange a b ++ intRange b c = intRange a c := by
  unfold intRange
  have h1 : (c - a).toNat = (b - a).toNat + (c - b).toNat := by omega
  rw [h1, List.range_add, List.map_append, List.map_map]
  congr 1
  apply List.map_congr_left
  intro k _
  simp only [Function.comp_apply, Int.ofNat_eq_coe]
  omega

theorem mem_intRange {i a b : Int} (h : i ∈ intRange a b) : a ≤ i ∧ i < b := by
  unfold intRange at h
  simp only [List.mem_map, List.mem_range, Int.ofNat_eq_coe] at h
  obtain ⟨k, hk, rfl⟩ := h
  omega

theorem mem_intRange_of {i a b : Int} (h1 : a ≤ i) (h2 : i < b) :
    i ∈ intRange a b := by
  unfold intRange
  simp only [List.mem_map, List.mem_range, Int.ofNat_eq_coe]
  exact ⟨(i - a).toNat, by omega, by omega⟩

theorem execute_chunk_eq_intRange (a b : Int) : execute_chunk a b = intRange a b := by
  unfold execute_chunk
  split
  · exact (intRange_eq_nil (by omega)).symm
  · rfl

theorem branchless_min_long_eq_min (a b : Int) : branchless_min_long a b = min a b := by
  unfold branchless_min_long
  rw [Int.min_def]
  split <;> split <;> omega

/-! ## Bookkeeping lemmas for the worker pool -/

theorem getD_lt_length {ws : List WStatus} {t : Nat}
    (h : ws.getD t WStatus.exited ≠ WStatus.exited) : t < ws.length := by
  by_contra hlt
  rw [List.getD_eq_default _ _ (by omega)] at h
  exact h rfl

theorem pendingOf_set (ws : List WStatus) (t : Nat) (w' : WStatus)
    (ht : t < ws.length) :
    (pendingOf (ws.set t w') ++ contrib (ws.getD t WStatus.exited)).Perm
      (contrib w' ++ pendingOf ws) := by
  induction ws generalizing t with
  | nil => simp at ht
  | cons w ws ih =>
    cases t with
    | zero =>
      simp only [List.set_cons_zero, List.getD_cons_zero, pendingOf]
      rw [List.append_assoc]
      exact List.Perm.append_left _ List.perm_append_comm
    | succ t =>
      simp only [List.set_cons_succ, List.getD_cons_succ, pendingOf]
      rw [List.append_assoc]
      have h := ih t (by simpa using ht)
      refine List.Perm.trans (List.Perm.append_left _ h) ?_
      rw [← List.append_assoc, ← List.append_assoc]
      exact List.Perm.append_right _ List.perm_append_comm

theorem pendingOf_eq_nil {ws : List WStatus}
    (h : ∀ w ∈ ws, w = WStatus.exited) : pendingOf ws = [] := by
  induction ws with
  | nil => rfl
  | cons w ws ih =>
    have hw := h w (by simp)
    rw [pendingOf, hw]
    rw [ih (fun x hx => h x (by simp [hx]))]
    rfl

theorem mem_set_cases {ws : List WStatus} {t : Nat} {w w' : WStatus}
    (h : w ∈ ws.set t w') : w ∈ ws ∨ w = w' :=
  List.mem_or_eq_of_mem_set h

/-! ## Wrap lemmas -/

theorem wrap_eq_self {x : Int} (h1 : -(2 ^ 63) ≤ x) (h2 : x < 2 ^ 63) :
    wrap x = x := by
  unfold wrap
  have h : (x + 2 ^ 63) % 2 ^ 64 = x + 2 ^ 63 :=
    Int.emod_eq_of_lt (by omega) (by omega)
  omega

/-! ## Step-equation lemmas for `worker_step` -/

theorem worker_step_run_exit {s : SysState} {t : Nat} {end_ chunk : Int}
    (hw : s.workers.getD t WStatus.exited = WStatus.running)
    (hge : end_ ≤ s.next) :
    worker_step end_ chunk s t
      = { next := wrap (s.next + chunk), workers := s.workers.set t WStatus.exited,
          log := s.log } := by
  simp only [worker_step, hw, atomic_fetch_add_long]
  rw [if_pos hge]

theorem worker_step_run_claim {s : SysState} {t : Nat} {end_ chunk : Int}
    (hw : s.workers.getD t WStatus.exited = WStatus.running)
    (hlt : s.next < end_) :
    worker_step end_ chunk s t
      = { next := wrap (s.next + chunk),
          workers := s.workers.set t
            (WStatus.executing s.next
              (branchless_min_long (wrap (s.next + chunk)) end_)),
          log := s.log } := by
  simp only [worker_step, hw, atomic_fetch_add_long]
  rw [if_neg (by omega)]

theorem worker_step_exec {s : SysState} {t : Nat} {end_ chunk a b : Int}
    (hw : s.workers.getD t WStatus.exited = WStatus.executing a b) :
    worker_step end_ chunk s t
      = { next := s.next, workers := s.workers.set t WStatus.running,
          log := s.log ++ execute_chunk a b } := by
  simp only [worker_step, hw]

theorem worker_step_exited {s : SysState} {t : Nat} {end_ chunk : Int}
    (hw : s.workers.getD t WStatus.exited = WStatus.exited) :
    worker_step end_ chunk s t = s := by
  simp only [worker_step, hw]

/-- `worker_step_run_claim` restated on an explicit state triple, so that
concrete runs can be rewritten without structure projections. -/
theorem worker_step_claim_mk {end_ chunk x : Int} {ws : List WStatus}
    {l : List Int} {t : Nat}
    (hw : ws.getD t WStatus.exited = WStatus.running) (hlt : x < end_) :
    worker_step end_ chunk ⟨x, ws, l⟩ t
      = ⟨wrap (x + chunk),
         ws.set t (WStatus.executing x
           (branchless_min_long (wrap (x + chunk)) end_)), l⟩ :=
  worker_step_run_claim hw hlt

/-- `worker_step_run_exit` restated on an explicit state triple. -/
theorem worker_step_exit_mk {end_ chunk x : Int} {ws : List WStatus}
    {l : List Int} {t : Nat}
    (hw : ws.getD t WStatus.exited = WStatus.running) (hge : end_ ≤ x) :
    worker_step end_ chunk ⟨x, ws, l⟩ t
      = ⟨wrap (x + chunk), ws.set t WStatus.exited, l⟩ :=
  worker_step_run_exit hw hge

/-- `worker_step_exec` restated on an explicit state triple. -/
theorem worker_step_exec_mk {end_ chunk x a b : Int} {ws : List WStatus}
    {l : List Int} {t : Nat}
    (hw : ws.getD t WStatus.exited = WStatus.executing a b) :
    worker_step end_ chunk ⟨x, ws, l⟩ t
      = ⟨x, ws.set t WStatus.running, l ++ execute_chunk a b⟩ :=
  worker_step_exec hw

/-! ## Exited-worker counting -/

theorem exitedCount_le_length (ws : List WStatus) :
    exitedCount ws ≤ ws.length := by
  induction ws with
  | nil => simp [exitedCount]
  | cons w ws ih =>
    simp only [exitedCount, List.length_cons]
    split <;> omega

theorem exitedCount_lt_length {ws : List WStatus} {t : Nat}
    (h : ws.getD t WStatus.exited ≠ WStatus.exited) :
    exitedCount ws < ws.length := by
  induction ws generalizing t with
  | nil =>
    exact absurd (by simp : ([] : List WStatus).getD t WStatus.exited
      = WStatus.exited) h
  | cons w ws ih =>
    cases t with
    | zero =>
      simp only [List.getD_cons_zero] at h
      have hle := exitedCount_le_length ws
      simp only [exitedCount, List.length_cons]
      rw [if_neg h]
      omega
    | succ t =>
      have hlt := ih (t := t) (by simpa using h)
      simp only [exitedCount, List.length_cons]
      split <;> omega

theorem exitedCount_set (ws : List WStatus) (t : Nat) (w' : WStatus)
    (ht : t < ws.length) :
    exitedCount (ws.set t w')
        + (if ws.getD t WStatus.exited = WStatus.exited then 1 else 0)
      = exitedCount ws + (if w' = WStatus.exited then 1 else 0) := by
  induction ws generalizing t with
  | nil => simp at ht
  | cons w ws ih =>
    cases t with
    | zero =>
      simp only [List.set_cons_zero, List.getD_cons_zero, exitedCount]
      omega
    | succ t =>
      simp only [List.set_cons_succ, List.getD_cons_succ, exitedCount]
      have h := ih t (by simpa using ht)
      omega

theorem exitedCount_replicate_running (n : Nat) :
    exitedCount (List.replicate n WStatus.running) = 0 := by
  induction n with
  | zero => rfl
  | succ n ih =>
    rw [List.replicate_succ, exitedCount, ih]
    simp

/-! ## The coverage invariant -/

/-- Invariant maintained by every atomic step, provided no 64-bit
overflow can occur: the cursor never drops below `begin`; the pool keeps
its size; the cursor exceeds `end − 1` by at most one chunk per exit
claim already taken; the indices already executed together with the
indices of claimed-but-unexecuted chunks are exactly
`[begin, min next end)`; and as soon as any worker has exited the cursor
has reached `end`. -/
def Inv (begin_ end_ chunk : Int) (n : Nat) (s : SysState) : Prop :=
  begin_ ≤ s.next ∧
  s.workers.length = n ∧
  s.next ≤ end_ - 1 + chunk + chunk * (exitedCount s.workers : Int) ∧
  (s.log ++ pendingOf s.workers).Perm (intRange begin_ (min s.next end_)) ∧
  ((∃ w ∈ s.workers, w = WStatus.exited) → end_ ≤ s.next)

theorem inv_mk {begin_ end_ chunk x : Int} {n : Nat} {ws : List WStatus}
    {l : List Int}
    (h1 : begin_ ≤ x)
    (h2 : ws.length = n)
    (h3 : x ≤ end_ - 1 + chunk + chunk * (exitedCount ws : Int))
    (h4 : (l ++ pendingOf ws).Perm (intRange begin_ (min x end_)))
    (h5 : (∃ w ∈ ws, w = WStatus.exited) → end_ ≤ x) :
    Inv begin_ end_ chunk n { next := x, workers := ws, log := l } :=
  ⟨h1, h2, h3, h4, h5⟩

theorem inv_init {begin_ end_ chunk : Int} (hr : begin_ < end_)
    (hc : 1 ≤ chunk) (n : Nat) :
    Inv begin_ end_ chunk n (initState begin_ n) := by
  refine ⟨le_refl _, by simp [initState], ?_, ?_, ?_⟩
  · show begin_ ≤ end_ - 1 + chunk
      + chunk * (exitedCount (List.replicate n WStatus.running) : Int)
    rw [exitedCount_replicate_running]
    simp only [Int.ofNat_zero, mul_zero]
    omega
  · have hp : pendingOf (List.replicate n WStatus.running) = [] := by
      induction n with
      | zero => rfl
      | succ n ih => rw [List.replicate_succ, pendingOf, ih]; rfl
    have hr' : intRange begin_ (min begin_ end_) = [] :=
      intRange_eq_nil (by omega)
    simp [initState, hp, hr']
  · intro ⟨w, hw, hex⟩
    rw [List.eq_of_mem_replicate hw] at hex
    exact absurd hex (by simp)

/-- Under the no-overflow bound, a step by a not-yet-exited worker never
wraps the cursor. -/
theorem wrap_add_safe {begin_ end_ chunk : Int} {n : Nat} {s : SysState}
    {t : Nat} (hc : 1 ≤ chunk) (hbeg : -(2 ^ 63) ≤ begin_)
    (hov : end_ - 1 + chunk * ((n : Int) + 1) < 2 ^ 63)
    (hInv : Inv begin_ end_ chunk n s)
    (hw : s.workers.getD t WStatus.exited ≠ WStatus.exited) :
    wrap (s.next + chunk) = s.next + chunk := by
  obtain ⟨h1, hlen, h3, _, _⟩ := hInv
  have hex : exitedCount s.workers < n := by
    rw [← hlen]
    exact exitedCount_lt_length hw
  apply wrap_eq_self
  · omega
  · have hnn : ((exitedCount s.workers : Nat) : Int) + 1 ≤ (n : Int) := by
      omega
    have hmono : chunk * (((exitedCount s.workers : Nat) : Int) + 1)
        ≤ chunk * (n : Int) :=
      mul_le_mul_of_nonneg_left hnn (by omega)
    have e1 : chunk * (((exitedCount s.workers : Nat) : Int) + 1)
        = chunk * ((exitedCount s.workers : Nat) : Int) + chunk := by ring
    have e2 : chunk * ((n : Int) + 1) = chunk * (n : Int) + chunk := by ring
    omega

theorem inv_step {begin_ end_ chunk : Int} {n : Nat} (hc : 1 ≤ chunk)
    (hbeg : -(2 ^ 63) ≤ begin_)
    (hov : end_ - 1 + chunk * ((n : Int) + 1) < 2 ^ 63)
    (s : SysState) (t : Nat) (h : Inv begin_ end_ chunk n s) :
    Inv begin_ end_ chunk n (worker_step end_ chunk s t) := by
  obtain ⟨h1, hlen, h3, h4, h5⟩ := h
  cases hw : s.workers.getD t WStatus.exited with
  | running =>
    have ht : t < s.workers.length := getD_lt_length (by rw [hw]; simp)
    have hwr : wrap (s.next + chunk) = s.next + chunk :=
      wrap_add_safe hc hbeg hov ⟨h1, hlen, h3, h4, h5⟩ (by rw [hw]; simp)
    have hcnt := exitedCount_set s.workers t WStatus.exited ht
    rw [hw] at hcnt
    simp at hcnt
    have hcnt2 := exitedCount_set s.workers t
      (WStatus.executing s.next (branchless_min_long (wrap (s.next + chunk)) end_)) ht
    rw [hw] at hcnt2
    simp at hcnt2
    by_cases hge : end_ ≤ s.next
    · -- the claim observes start ≥ end: the worker exits
      rw [worker_step_run_exit hw hge, hwr]
      have hps := pendingOf_set s.workers t WStatus.exited ht
      rw [hw] at hps
      simp only [contrib, List.append_nil, List.nil_append] at hps
      refine inv_mk (by omega) (by rw [List.length_set]; exact hlen) ?_ ?_
        (fun _ => by omega)
      · rw [show exitedCount (s.workers.set t WStatus.exited)
            = exitedCount s.workers + 1 from by omega]
        have e1 : chunk * (((exitedCount s.workers + 1 : Nat)) : Int)
            = chunk * ((exitedCount s.workers : Nat) : Int) + chunk := by
          push_cast
          ring
        omega
      · have hmin : min (s.next + chunk) end_ = min s.next end_ := by omega
        rw [hmin]
        exact (List.Perm.append_left s.log hps).trans h4
    · -- the claim obtains start < end: the worker holds [start, stop)
      have hlt : s.next < end_ := by omega
      rw [worker_step_run_claim hw hlt, hwr]
      have hps := pendingOf_set s.workers t
        (WStatus.executing s.next (branchless_min_long (s.next + chunk) end_)) ht
      rw [hw] at hps
      simp only [contrib, List.append_nil] at hps
      refine inv_mk (by omega) (by rw [List.length_set]; exact hlen) ?_ ?_ ?_
      · rw [hwr] at hcnt2
        rw [show exitedCount (s.workers.set t
              (WStatus.executing s.next (branchless_min_long (s.next + chunk) end_)))
            = exitedCount s.workers from by omega]
        have hnn : 0 ≤ chunk * ((exitedCount s.workers : Nat) : Int) :=
          mul_nonneg (by omega) (Int.ofNat_nonneg _)
        omega
      · have hstop : branchless_min_long (s.next + chunk) end_
            = min (s.next + chunk) end_ := branchless_min_long_eq_min _ _
        have hmin1 : min s.next end_ = s.next := by omega
        have happ : intRange begin_ s.next ++
            intRange s.next (min (s.next + chunk) end_)
            = intRange begin_ (min (s.next + chunk) end_) :=
          intRange_append h1 (by omega)
        rw [hmin1] at h4
        refine List.Perm.trans (List.Perm.append_left s.log hps) ?_
        rw [execute_chunk_eq_intRange, hstop]
        refine List.Perm.trans (List.Perm.append_left s.log List.perm_append_comm) ?_
        rw [← List.append_assoc]
        refine List.Perm.trans (List.Perm.append_right _ h4) ?_
        rw [happ]
      · rintro ⟨w, hmem, hex⟩
        rcases mem_set_cases hmem with hold | hnew
        · have := h5 ⟨w, hold, hex⟩
          omega
        · rw [hnew] at hex
          simp at hex
  | executing a b =>
    have ht : t < s.workers.length := getD_lt_length (by rw [hw]; simp)
    rw [worker_step_exec hw]
    have hps := pendingOf_set s.workers t WStatus.running ht
    rw [hw] at hps
    simp only [contrib, List.nil_append] at hps
    have hcnt := exitedCount_set s.workers t WStatus.running ht
    rw [hw] at hcnt
    simp at hcnt
    refine inv_mk h1 (by rw [List.length_set]; exact hlen) ?_ ?_ ?_
    · rw [show exitedCount (s.workers.set t WStatus.running)
          = exitedCount s.workers from by omega]
      exact h3
    · refine List.Perm.trans ?_ h4
      rw [List.append_assoc]
      refine List.Perm.append_left s.log ?_
      exact List.Perm.trans List.perm_append_comm hps
    · rintro ⟨w, hmem, hex⟩
      rcases mem_set_cases hmem with hold | hnew
      · exact h5 ⟨w, hold, hex⟩
      · rw [hnew] at hex
        simp at hex
  | exited =>
    rw [worker_step_exited hw]
    exact ⟨h1, hlen, h3, h4, h5⟩

theorem inv_run {begin_ end_ chunk : Int} {n : Nat} (hc : 1 ≤ chunk)
    (hbeg : -(2 ^ 63) ≤ begin_)
    (hov : end_ - 1 + chunk * ((n : Int) + 1) < 2 ^ 63)
    (σ : List Nat) (s : SysState) (h : Inv begin_ end_ chunk n s) :
    Inv begin_ end_ chunk n (runSched end_ chunk s σ) := by
  induction σ generalizing s with
  | nil => exact h
  | cons t ts ih => exact ih _ (inv_step hc hbeg hov s t h)

theorem runSched_append (end_ chunk : Int) (σ₁ σ₂ : List Nat) (s : SysState) :
    runSched end_ chunk s (σ₁ ++ σ₂)
      = runSched end_ chunk (runSched end_ chunk s σ₁) σ₂ := by
  induction σ₁ generalizing s with
  | nil => rfl
  | cons t ts ih => rw [List.cons_append, runSched, runSched, ih]

/-- Main coverage helper: when no 64-bit overflow can occur, any schedule
that drives every worker out of its loop leaves an invocation log that is
a permutation of `[begin, end)`. -/
theorem coverage_of_allExited {begin_ end_ chunk : Int} {n : Nat}
    (hc : 1 ≤ chunk) (hr : begin_ < end_) (hbeg : -(2 ^ 63) ≤ begin_)
    (hov : end_ - 1 + chunk * ((n : Int) + 1) < 2 ^ 63) (hn : 0 < n)
    (σ : List Nat)
    (hdone : allExited (runSched end_ chunk (initState begin_ n) σ) = true) :
    (runSched end_ chunk (initState begin_ n) σ).log.Perm (intRange begin_ end_) := by
  set s := runSched end_ chunk (initState begin_ n) σ with hs
  have hinv : Inv begin_ end_ chunk n s :=
    inv_run hc hbeg hov σ _ (inv_init hr hc n)
  obtain ⟨h1, hlen, h3, h4, h5⟩ := hinv
  have hall : ∀ w ∈ s.workers, w = WStatus.exited := by
    intro w hwmem
    have := List.all_eq_true.mp hdone w hwmem
    exact of_decide_eq_true this
  obtain ⟨w, hwmem⟩ : ∃ w, w ∈ s.workers :=
    List.exists_mem_of_length_pos (by omega)
  have hend : end_ ≤ s.next := h5 ⟨w, hwmem, hall w hwmem⟩
  have hmin : min s.next end_ = end_ := by omega
  rw [pendingOf_eq_nil hall, hmin, List.append_nil] at h4
  exact h4

/-! ## Termination measure -/

/-- Weight of one worker: a running worker still owes a claim step and
possibly an execute step; a worker holding a chunk owes the execute step
plus its next claim; an exited worker owes nothing. -/
def statusWeight : WStatus → Nat
  | .running => 1
  | .executing _ _ => 2
  | .exited => 0

/-- Total weight of the worker pool. -/
def wsum : List WStatus → Nat
  | [] => 0
  | w :: ws => statusWeight w + wsum ws

/-- Strictly decreasing measure: twice the remaining distance of the
cursor to `end` plus the pool weight. -/
def measureOf (end_ : Int) (s : SysState) : Nat :=
  2 * (end_ - s.next).toNat + wsum s.workers

theorem wsum_set (ws : List WStatus) (t : Nat) (w' : WStatus)
    (ht : t < ws.length) :
    wsum (ws.set t w') + statusWeight (ws.getD t WStatus.exited)
      = wsum ws + statusWeight w' := by
  induction ws generalizing t with
  | nil => simp at ht
  | cons w ws ih =>
    cases t with
    | zero =>
      simp only [List.set_cons_zero, List.getD_cons_zero, wsum]
      omega
    | succ t =>
      simp only [List.set_cons_succ, List.getD_cons_succ, wsum]
      have h := ih t (by simpa using ht)
      omega

theorem wsum_replicate_running (n : Nat) :
    wsum (List.replicate n WStatus.running) = n := by
  induction n with
  | zero => rfl
  | succ n ih =>
    rw [List.replicate_succ, wsum, ih]
    simp only [statusWeight]
    omega

theorem measure_decreases (end_ chunk : Int) (hc : 1 ≤ chunk) (s : SysState)
    (t : Nat) (hw : s.workers.getD t WStatus.exited ≠ WStatus.exited)
    (hwr : wrap (s.next + chunk) = s.next + chunk) :
    measureOf end_ (worker_step end_ chunk s t) < measureOf end_ s := by
  have ht : t < s.workers.length := getD_lt_length hw
  cases hg : s.workers.getD t WStatus.exited with
  | running =>
    have hws := wsum_set s.workers t WStatus.exited ht
    have hws2 := wsum_set s.workers t
      (WStatus.executing s.next (branchless_min_long (s.next + chunk) end_)) ht
    rw [hg] at hws hws2
    by_cases hge : end_ ≤ s.next
    · rw [worker_step_run_exit hg hge, hwr]
      simp only [measureOf, statusWeight] at *
      omega
    · rw [worker_step_run_claim hg (by omega), hwr]
      simp only [measureOf, statusWeight] at *
      omega
  | executing a b =>
    have hws := wsum_set s.workers t WStatus.running ht
    rw [hg] at hws
    rw [worker_step_exec hg]
    simp only [measureOf, statusWeight] at *
    omega
  | exited => exact absurd hg hw

theorem productive_length_le {begin_ end_ chunk : Int} {n : Nat}
    (hc : 1 ≤ chunk) (hbeg : -(2 ^ 63) ≤ begin_)
    (hov : end_ - 1 + chunk * ((n : Int) + 1) < 2 ^ 63)
    (σ : List Nat) (s : SysState) (hInv : Inv begin_ end_ chunk n s)
    (hσ : productiveSched end_ chunk s σ = true) :
    σ.length ≤ measureOf end_ s := by
  induction σ generalizing s with
  | nil => simp
  | cons t ts ih =>
    rw [productiveSched, Bool.and_eq_true] at hσ
    obtain ⟨hw, hts⟩ := hσ
    have hw' : s.workers.getD t WStatus.exited ≠ WStatus.exited := by
      intro heq
      rw [heq] at hw
      simp at hw
    have hwr := wrap_add_safe hc hbeg hov hInv hw'
    have h1 := measure_decreases end_ chunk hc s t hw' hwr
    have h2 := ih _ (inv_step hc hbeg hov s t hInv) hts
    simp only [List.length_cons]
    omega

/-! ## In-range helper -/

theorem log_mem_in_range {begin_ end_ chunk : Int} {n : Nat}
    (hc : 1 ≤ chunk) (hr : begin_ < end_) (hbeg : -(2 ^ 63) ≤ begin_)
    (hov : end_ - 1 + chunk * ((n : Int) + 1) < 2 ^ 63)
    (σ : List Nat) {i : Int}
    (hi : i ∈ (runSched end_ chunk (initState begin_ n) σ).log) :
    begin_ ≤ i ∧ i < end_ := by
  have hinv : Inv begin_ end_ chunk n
      (runSched end_ chunk (initState begin_ n) σ) :=
    inv_run hc hbeg hov σ _ (inv_init hr hc n)
  obtain ⟨h1, hlen, h3, h4, h5⟩ := hinv
  have hmem : i ∈ intRange begin_
      (min (runSched end_ chunk (initState begin_ n) σ).next end_) :=
    h4.mem_iff.mp (List.mem_append_left _ hi)
  have := mem_intRange hmem
  omega

/-! ## Dispatcher helper lemmas -/

theorem one_le_sys_ncores (env : Env) : 1 ≤ sys_ncores env := by
  unfold sys_ncores
  split <;> omega

theorem one_le_active_cores (env : Env) (options : Nat) :
    1 ≤ active_cores env options := by
  simp only [active_cores]
  split <;> omega

theorem one_le_effective_nthreads (env : Env) (nthreads : Int) (options : Nat) :
    1 ≤ effective_nthreads env nthreads options := by
  have ha := one_le_active_cores env options
  simp only [effective_nthreads]
  split
  · omega
  · split <;> omega

theorem one_le_norm_chunk (chunk : Int) : 1 ≤ norm_chunk chunk := by
  unfold norm_chunk
  split <;> omega

/-- With PIN_CORE requested and the entire mask harvest succeeding,
`active_cores` is exactly the affinity-mask cpu count. -/
theorem active_cores_eq_cpu_count (env : Env) (options : Nat)
    (hpin : options &&& PARALLEL_OPT_PIN_CORE ≠ 0)
    (hok : env.sched_getaffinity_ok = true)
    (hcnt : 0 < cpu_count env.affinity_mask)
    (hmal : env.malloc_core_ids_ok = true) :
    active_cores env options = (cpu_count env.affinity_mask : Int) := by
  have hci : core_ids env options = enumerated_core_ids env.affinity_mask := by
    unfold core_ids
    rw [if_pos ⟨hpin, hok, hcnt, hmal⟩]
  have hl : 0 < (enumerated_core_ids env.affinity_mask).length := hcnt
  simp only [active_cores, core_count, hci]
  rw [if_pos hl, if_neg (by omega)]
  rfl

theorem parallel_for_invalid {begin_ end_ chunk nthreads : Int} {options : Nat}
    {body_null : Bool} (env : Env) (h : body_null = true ∨ end_ ≤ begin_) :
    parallel_for begin_ end_ chunk nthreads options body_null env
      = { status := -1, effThreads := 0, spawned := 0, effChunk := chunk,
          cores := [] } := by
  unfold parallel_for
  rw [if_pos h]

theorem parallel_for_calloc_fail {begin_ end_ chunk nthreads : Int}
    {options : Nat} {body_null : Bool} {env : Env}
    (hv : ¬(body_null = true ∨ end_ ≤ begin_))
    (hcal : env.calloc_ok = false) :
    parallel_for begin_ end_ chunk nthreads options body_null env
      = { status := -2,
          effThreads := (effective_nthreads env nthreads options).toNat,
          spawned := 0, effChunk := norm_chunk chunk, cores := [] } := by
  simp only [parallel_for]
  rw [if_neg hv, if_pos hcal]

theorem parallel_for_spawn_fail {begin_ end_ chunk nthreads : Int}
    {options : Nat} {body_null : Bool} {env : Env} {k : Nat}
    (hv : ¬(body_null = true ∨ end_ ≤ begin_))
    (hcal : env.calloc_ok = true)
    (hfs : first_spawn_failure env
      (effective_nthreads env nthreads options).toNat = some k) :
    parallel_for begin_ end_ chunk nthreads options body_null env
      = { status := -3,
          effThreads := (effective_nthreads env nthreads options).toNat,
          spawned := k, effChunk := norm_chunk chunk,
          cores := (List.range k).map (chosen_core env options) } := by
  simp only [parallel_for]
  rw [if_neg hv, if_neg (by simp [hcal]), hfs]

theorem parallel_for_success {begin_ end_ chunk nthreads : Int}
    {options : Nat} {body_null : Bool} {env : Env}
    (hv : ¬(body_null = true ∨ end_ ≤ begin_))
    (hcal : env.calloc_ok = true)
    (hfs : first_spawn_failure env
      (effective_nthreads env nthreads options).toNat = none) :
    parallel_for begin_ end_ chunk nthreads options body_null env
      = { status := 0,
          effThreads := (effective_nthreads env nthreads options).toNat,
          spawned := (effective_nthreads env nthreads options).toNat,
          effChunk := norm_chunk chunk,
          cores := (List.range (effective_nthreads env nthreads options).toNat).map
            (chosen_core env options) } := by
  simp only [parallel_for]
  rw [if_neg hv, if_neg (by simp [hcal]), hfs]

theorem worker_step_no_workers (end_ chunk b : Int) (t : Nat) :
    worker_step end_ chunk (initState b 0) t = initState b 0 :=
  worker_step_exited (by simp [initState])

theorem runSched_no_workers (end_ chunk b : Int) (σ : List Nat) :
    runSched end_ chunk (initState b 0) σ = initState b 0 := by
  induction σ with
  | nil => rfl
  | cons t ts ih => rw [runSched, worker_step_no_workers, ih]

/-! ## Claim theorems -/

/-- Counterexample to claim C3 as stated: the code clamps to
`active_cores`, not to the mask-based eligible core count.  With PIN_CORE
requested, the mask `{1, 2}` read successfully, but the core-id
allocation failing, `active_cores` falls back to the online count 4, and
a call with `nthreads = 3` — strictly greater than the 2 eligible cores —
spawns 3 workers instead of being clamped to 2. -/
theorem pin_clamp_to_eligible_counterexample :
    effective_nthreads envMallocFail 3 PARALLEL_OPT_PIN_CORE = 3 ∧
    claimed_eligible_cores envMallocFail = 2 ∧
    claimed_eligible_cores envMallocFail < 3 ∧
    effective_nthreads envMallocFail 3 PARALLEL_OPT_PIN_CORE
      ≠ claimed_eligible_cores envMallocFail := by
  decide

/-- Claim C3 amended: with PIN_CORE requested and a positive `nthreads`
strictly greater than `active_cores`, the effective thread count used to
spawn workers is clamped down to exactly `active_cores`; `active_cores`
coincides with the mask-based eligible core count only when the mask read
succeeds with at least one cpu set and the core-id allocation succeeds. -/
theorem pin_clamps_nthreads_to_active_cores (env : Env) (nthreads : Int)
    (options : Nat) (hpin : options &&& PARALLEL_OPT_PIN_CORE ≠ 0)
    (hpos : 0 < nthreads) (hgt : active_cores env options < nthreads) :
    effective_nthreads env nthreads options = active_cores env options ∧
    (env.sched_getaffinity_ok = true → 0 < cpu_count env.affinity_mask →
      env.malloc_core_ids_ok = true →
      active_cores env options = (cpu_count env.affinity_mask : Int)) := by
  refine ⟨?_, active_cores_eq_cpu_count env options hpin⟩
  simp only [effective_nthreads]
  rw [if_neg (by omega : ¬ nthreads ≤ 0)]
  rw [if_pos ⟨hpin, hgt⟩]

/-- Witness for the amended C3: `nthreads = 16`, `PIN_CORE`, 4 eligible
cores — the effective thread count is clamped to 4. -/
theorem pin_clamps_nthreads_to_active_cores_witness :
    effective_nthreads envDefault 16 PARALLEL_OPT_PIN_CORE
      = active_cores envDefault PARALLEL_OPT_PIN_CORE ∧
    active_cores envDefault PARALLEL_OPT_PIN_CORE = 4 :=
  ⟨(pin_clamps_nthreads_to_active_cores envDefault 16 PARALLEL_OPT_PIN_CORE
      (by decide) (by decide) (by decide)).1,
   by decide⟩

/-- Claim C4: a null body or an empty/inverted range (`end ≤ begin`) is
detected synchronously: the call returns the invalid-argument code `-1`,
spawns no worker thread, and the callback is invoked zero times (a
zero-worker pool produces an empty invocation log under any schedule). -/
theorem invalid_arguments_fail_fast (begin_ end_ chunk nthreads : Int)
    (options : Nat) (body_null : Bool) (env : Env)
    (h : body_null = true ∨ end_ ≤ begin_) :
    (parallel_for begin_ end_ chunk nthreads options body_null env).status = -1 ∧
    (parallel_for begin_ end_ chunk nthreads options body_null env).spawned = 0 ∧
    (parallel_for begin_ end_ chunk nthreads options body_null env).effThreads = 0 ∧
    ∀ σ : List Nat,
      (runSched end_ (norm_chunk chunk) (initState begin_ 0) σ).log = [] := by
  rw [parallel_for_invalid env h]
  refine ⟨rfl, rfl, rfl, fun σ => ?_⟩
  rw [runSched_no_workers]
  rfl

/-- Witness for C4: `begin = end = 5` fails with `-1` and no spawned
worker. -/
theorem invalid_arguments_fail_fast_witness :
    (parallel_for 5 5 3 4 0 false envDefault).status = -1 ∧
    (parallel_for 5 5 3 4 0 false envDefault).spawned = 0 :=
  ⟨(invalid_arguments_fail_fast 5 5 3 4 0 false envDefault (Or.inr (le_refl 5))).1,
   (invalid_arguments_fail_fast 5 5 3 4 0 false envDefault (Or.inr (le_refl 5))).2.1⟩

/-- Claim C5: a non-positive chunk is coerced to 1 before any work
begins, so the run with that chunk is literally the run with chunk 1
under every schedule; in particular the same indices are visited, each
the same number of times. -/
theorem nonpositive_chunk_behaves_as_one (chunk : Int) (h : chunk ≤ 0)
    (begin_ end_ : Int) (n : Nat) (σ : List Nat) :
    norm_chunk chunk = 1 ∧
    runSched end_ (norm_chunk chunk) (initState begin_ n) σ
      = runSched end_ (norm_chunk 1) (initState begin_ n) σ ∧
    (runSched end_ (norm_chunk chunk) (initState begin_ n) σ).log
      = (runSched end_ (norm_chunk 1) (initState begin_ n) σ).log := by
  have h1 : norm_chunk chunk = 1 := by
    unfold norm_chunk
    rw [if_pos h]
  have h2 : norm_chunk 1 = (1 : Int) := by
    unfold norm_chunk
    rw [if_neg (by omega)]
  rw [h1, h2]
  exact ⟨rfl, rfl, rfl⟩

/-- Witness for C5 at `chunk = -3`. -/
theorem nonpositive_chunk_behaves_as_one_witness :
    norm_chunk (-3) = 1 ∧
    runSched 4 (norm_chunk (-3)) (initState 0 2) [0, 1, 0, 1]
      = runSched 4 (norm_chunk 1) (initState 0 2) [0, 1, 0, 1] :=
  ⟨(nonpositive_chunk_behaves_as_one (-3) (by decide) 0 4 2 [0, 1, 0, 1]).1,
   (nonpositive_chunk_behaves_as_one (-3) (by decide) 0 4 2 [0, 1, 0, 1]).2.1⟩

/-- Claim C9 amended (implicit): provided the 64-bit cursor cannot
overflow — `end − 1 + chunk·(nthreads + 1) < 2^63`, with `begin` in range
and `begin < end` — every worker's claim loop terminates: the effective
chunk is at least 1, every fetch-and-add strictly advances the cursor, so
any schedule consisting solely of steps of not-yet-exited workers has
length at most `2·(end − begin) + nthreads`; in particular no infinite
execution exists and `parallel_for` terminates.  Without the overflow
bound the cursor wraps and the loop can cycle forever. -/
theorem worker_claim_loops_terminate (begin_ end_ chunk : Int) (n : Nat)
    (σ : List Nat) (hr : begin_ < end_) (hbeg : -(2 ^ 63) ≤ begin_)
    (hov : end_ - 1 + norm_chunk chunk * ((n : Int) + 1) < 2 ^ 63)
    (hσ : productiveSched end_ (norm_chunk chunk) (initState begin_ n) σ = true) :
    σ.length ≤ 2 * (end_ - begin_).toNat + n := by
  have h := productive_length_le (one_le_norm_chunk chunk) hbeg hov σ _
    (inv_init hr (one_le_norm_chunk chunk) n) hσ
  simpa [measureOf, initState, wsum_replicate_running] using h

/-- Witness for the amended C9: one worker over `[0, 2)` with chunk 1
exits after 5 productive steps, within the bound `2·2 + 1 = 5`. -/
theorem worker_claim_loops_terminate_witness :
    productiveSched 2 (norm_chunk 1) (initState 0 1) [0, 0, 0, 0, 0] = true ∧
    ([0, 0, 0, 0, 0] : List Nat).length ≤ 2 * ((2 : Int) - 0).toNat + 1 :=
  ⟨by decide,
   worker_claim_loops_terminate 0 2 1 1 [0, 0, 0, 0, 0] (by decide) (by decide)
     (by decide) (by decide)⟩

/-- Claim C10 amended (implicit): provided the 64-bit cursor cannot
overflow — `end − 1 + chunk·(nthreads + 1) < 2^63`, with `begin` in range
and `begin < end` — every index the callback is invoked on lies in
`[begin, end)`: under any schedule, every entry of the invocation log
satisfies `begin ≤ i < end`.  Without the overflow bound a wrapped chunk
passes out-of-range indices to the callback. -/
theorem callback_indices_within_range (begin_ end_ chunk : Int) (n : Nat)
    (σ : List Nat) (i : Int) (hr : begin_ < end_) (hbeg : -(2 ^ 63) ≤ begin_)
    (hov : end_ - 1 + norm_chunk chunk * ((n : Int) + 1) < 2 ^ 63)
    (hi : i ∈ (runSched end_ (norm_chunk chunk) (initState begin_ n) σ).log) :
    begin_ ≤ i ∧ i < end_ :=
  log_mem_in_range (one_le_norm_chunk chunk) hr hbeg hov σ hi

/-- Witness for the amended C10: index 0 is invoked in a run over
`[0, 3)` and the bounds hold for it. -/
theorem callback_indices_within_range_witness :
    (0 : Int) ∈ (runSched 3 (norm_chunk 2) (initState 0 1) [0, 0]).log ∧
    ((0 : Int) ≤ 0 ∧ (0 : Int) < 3) :=
  ⟨by decide,
   callback_indices_within_range 0 3 2 1 [0, 0] 0 (by decide) (by decide)
     (by decide) (by decide)⟩

/-- Claim C1 amended: for a call with non-null body, `begin < end`, that
returns success, and whose arithmetic cannot overflow the 64-bit cursor
(`begin` in range and `end − 1 + chunk·(spawned + 1) < 2^63`), the
callback has been invoked exactly once per index of `[begin, end)`: under
every schedule that drives all spawned workers out of their claim loops,
the invocation log is a permutation of `[begin, end)` — the claimed
chunks tile the range with no gaps or overlaps.  Without the overflow
bound a wrapped cursor makes a successful call invoke indices twice and
out of range. -/
theorem parallel_for_visits_each_index_once (begin_ end_ chunk nthreads : Int)
    (options : Nat) (env : Env) (hr : begin_ < end_)
    (hbeg : -(2 ^ 63) ≤ begin_)
    (hs : (parallel_for begin_ end_ chunk nthreads options false env).status = 0)
    (hov : end_ - 1 + norm_chunk chunk *
      (((parallel_for begin_ end_ chunk nthreads options false env).spawned : Int)
        + 1) < 2 ^ 63)
    (σ : List Nat)
    (hdone : allExited (runSched end_ (norm_chunk chunk)
      (initState begin_
        (parallel_for begin_ end_ chunk nthreads options false env).spawned) σ)
      = true) :
    (runSched end_ (norm_chunk chunk)
      (initState begin_
        (parallel_for begin_ end_ chunk nthreads options false env).spawned)
      σ).log.Perm (intRange begin_ end_) := by
  have hv : ¬(false = true ∨ end_ ≤ begin_) := by
    rintro (h | h)
    · simp at h
    · omega
  have hn : 0 < (parallel_for begin_ end_ chunk nthreads options false env).spawned := by
    by_cases hcal : env.calloc_ok = true
    · cases hfs : first_spawn_failure env
        (effective_nthreads env nthreads options).toNat with
      | some k =>
          rw [parallel_for_spawn_fail hv hcal hfs] at hs
          simp at hs
      | none =>
          rw [parallel_for_success hv hcal hfs]
          show 0 < (effective_nthreads env nthreads options).toNat
          have := one_le_effective_nthreads env nthreads options
          omega
    · rw [parallel_for_calloc_fail hv (by simpa using hcal)] at hs
      simp at hs
  exact coverage_of_allExited (one_le_norm_chunk chunk) hr hbeg hov hn σ hdone

/-- Witness for the amended C1: `begin=0, end=3, chunk=2, nthreads=1`
succeeds and a complete schedule visits `{0, 1, 2}` exactly once each. -/
theorem parallel_for_visits_each_index_once_witness :
    (parallel_for 0 3 2 1 0 false envDefault).status = 0 ∧
    allExited (runSched 3 (norm_chunk 2)
      (initState 0 (parallel_for 0 3 2 1 0 false envDefault).spawned)
      [0, 0, 0, 0, 0]) = true ∧
    (runSched 3 (norm_chunk 2)
      (initState 0 (parallel_for 0 3 2 1 0 false envDefault).spawned)
      [0, 0, 0, 0, 0]).log.Perm (intRange 0 3) :=
  ⟨by decide, by decide,
   parallel_for_visits_each_index_once 0 3 2 1 0 envDefault (by decide)
     (by decide) (by decide) (by decide) [0, 0, 0, 0, 0] (by decide)⟩

/-- Claim C6 amended: when `pthread_create` fails at ordinal `k` after
`k` successful spawns, the call reports exactly `k` created-and-joined
workers (`spawned = k`, with `k` strictly below the intended pool size)
and returns the spawn-failure code `-3`; the work of the joined workers
is retained, and — provided the 64-bit cursor cannot overflow (`begin`
in range, `end − 1 + chunk·(k + 1) < 2^63`) — joining runs them to
completion, so any complete schedule of those `k` workers leaves a log
covering all of `[begin, end)`.  Without the overflow bound the retained
log of the drained workers need not be a permutation of the range. -/
theorem spawn_failure_joins_spawned_workers (begin_ end_ chunk nthreads : Int)
    (options : Nat) (env : Env) (k : Nat) (hr : begin_ < end_)
    (hcal : env.calloc_ok = true)
    (hfs : first_spawn_failure env
      (effective_nthreads env nthreads options).toNat = some k) :
    (parallel_for begin_ end_ chunk nthreads options false env).status = -3 ∧
    (parallel_for begin_ end_ chunk nthreads options false env).spawned = k ∧
    k < (parallel_for begin_ end_ chunk nthreads options false env).effThreads ∧
    (0 < k → -(2 ^ 63) ≤ begin_ →
      end_ - 1 + norm_chunk chunk * ((k : Int) + 1) < 2 ^ 63 →
      ∀ σ : List Nat,
      allExited (runSched end_ (norm_chunk chunk) (initState begin_ k) σ) = true →
      (runSched end_ (norm_chunk chunk) (initState begin_ k) σ).log.Perm
        (intRange begin_ end_)) := by
  have hv : ¬(false = true ∨ end_ ≤ begin_) := by
    rintro (h | h)
    · simp at h
    · omega
  rw [parallel_for_spawn_fail hv hcal hfs]
  refine ⟨rfl, rfl, ?_, ?_⟩
  · show k < (effective_nthreads env nthreads options).toNat
    exact List.mem_range.mp (List.mem_of_find?_eq_some hfs)
  · intro hk hbeg hov σ hdone
    exact coverage_of_allExited (one_le_norm_chunk chunk) hr hbeg hov hk σ hdone

/-- Witness for the amended C6: spawn failure at ordinal 1 of a 2-thread
pool over `[0, 2)`: status `-3`, one worker spawned, and a complete
schedule of that worker still covers the whole range. -/
theorem spawn_failure_joins_spawned_workers_witness :
    (parallel_for 0 2 1 2 0 false envSpawnFail).status = -3 ∧
    (parallel_for 0 2 1 2 0 false envSpawnFail).spawned = 1 ∧
    (runSched 2 (norm_chunk 1) (initState 0 1) [0, 0, 0, 0, 0]).log.Perm
      (intRange 0 2) := by
  have h := spawn_failure_joins_spawned_workers 0 2 1 2 0 envSpawnFail 1
    (by decide) (by decide) (by decide)
  exact ⟨h.1, h.2.1,
    h.2.2.2 (by decide) (by decide) (by decide) [0, 0, 0, 0, 0] (by decide)⟩

/-- Claim C7: `parallel_for` returns 0 on success and three
pairwise-distinct negative codes — `-1` exactly for invalid arguments,
`-2` exactly for allocation failure (with no thread spawned), `-3`
exactly for a thread-spawn failure. -/
theorem status_code_classification (begin_ end_ chunk nthreads : Int)
    (options : Nat) (body_null : Bool) (env : Env) :
    ((parallel_for begin_ end_ chunk nthreads options body_null env).status = 0 ∨
     (parallel_for begin_ end_ chunk nthreads options body_null env).status = -1 ∨
     (parallel_for begin_ end_ chunk nthreads options body_null env).status = -2 ∨
     (parallel_for begin_ end_ chunk nthreads options body_null env).status = -3) ∧
    ((parallel_for begin_ end_ chunk nthreads options body_null env).status = -1 ↔
      body_null = true ∨ end_ ≤ begin_) ∧
    ((parallel_for begin_ end_ chunk nthreads options body_null env).status = -2 ↔
      ¬(body_null = true ∨ end_ ≤ begin_) ∧ env.calloc_ok = false) ∧
    ((parallel_for begin_ end_ chunk nthreads options body_null env).status = -3 ↔
      ¬(body_null = true ∨ end_ ≤ begin_) ∧ env.calloc_ok = true ∧
      ∃ k, first_spawn_failure env
        (effective_nthreads env nthreads options).toNat = some k) ∧
    ((parallel_for begin_ end_ chunk nthreads options body_null env).status = 0 ↔
      ¬(body_null = true ∨ end_ ≤ begin_) ∧ env.calloc_ok = true ∧
      first_spawn_failure env
        (effective_nthreads env nthreads options).toNat = none) ∧
    ((parallel_for begin_ end_ chunk nthreads options body_null env).status = -2 →
      (parallel_for begin_ end_ chunk nthreads options body_null env).spawned = 0) ∧
    ((-1 : Int) ≠ -2 ∧ (-1 : Int) ≠ -3 ∧ (-2 : Int) ≠ -3 ∧
      (-1 : Int) < 0 ∧ (-2 : Int) < 0 ∧ (-3 : Int) < 0) := by
  by_cases hv : body_null = true ∨ end_ ≤ begin_
  · rw [parallel_for_invalid env hv]
    refine ⟨by simp, by simp [hv], by simp [hv], by simp [hv], by simp [hv],
      by simp, by norm_num⟩
  · by_cases hcal : env.calloc_ok = true
    · cases hfs : first_spawn_failure env
        (effective_nthreads env nthreads options).toNat with
      | some k =>
          rw [parallel_for_spawn_fail hv hcal hfs]
          refine ⟨by simp, by simp [hv], by simp [hv, hcal], by simp [hv, hcal, hfs],
            by simp [hfs], by simp, by norm_num⟩
      | none =>
          rw [parallel_for_success hv hcal hfs]
          refine ⟨by simp, by simp [hv], by simp [hv, hcal], by simp [hfs],
            by simp [hv, hcal, hfs], by simp, by norm_num⟩
    · have hcal' : env.calloc_ok = false := by simpa using hcal
      rw [parallel_for_calloc_fail hv hcal']
      refine ⟨by simp, by simp [hv], by simp [hv, hcal'], by simp [hcal'],
        by simp [hcal'], by simp, by norm_num⟩

/-- Witness for C7: an allocation failure yields `-2` and zero spawned
threads. -/
theorem status_code_classification_witness :
    (parallel_for 0 4 1 2 0 false envCallocFail).status = -2 ∧
    (parallel_for 0 4 1 2 0 false envCallocFail).spawned = 0 := by
  have h := status_code_classification 0 4 1 2 0 false envCallocFail
  have hs : (parallel_for 0 4 1 2 0 false envCallocFail).status = -2 := by decide
  exact ⟨hs, h.2.2.2.2.2.1 hs⟩

/-- Counterexample to claim C2 as stated: the affinity mask is consulted
only when PIN_CORE is requested.  On a host with 4 online processors and
a readable 2-cpu affinity mask, a call with `nthreads = 0` and no options
uses 4 worker threads (the online count), not the 2 cpus permitted to the
process, so the effective count does not equal the claim's eligible core
count. -/
theorem default_nthreads_ignores_affinity_counterexample :
    effective_nthreads envMasked 0 0 = 4 ∧
    claimed_eligible_cores envMasked = 2 ∧
    effective_nthreads envMasked 0 0 ≠ claimed_eligible_cores envMasked := by
  decide

/-- Claim C2 amended: `nthreads ≤ 0` yields an effective thread count
equal to `active_cores`, which is the affinity-mask cpu count only when
PIN_CORE is requested (and the mask read succeeds, the mask is non-empty,
and the core-id allocation succeeds); without PIN_CORE it is the online
processor count. -/
theorem default_nthreads_eq_active_cores (env : Env) (nthreads : Int)
    (options : Nat) (h : nthreads ≤ 0) :
    effective_nthreads env nthreads options = active_cores env options ∧
    (options &&& PARALLEL_OPT_PIN_CORE = 0 →
      active_cores env options = sys_ncores env) ∧
    (options &&& PARALLEL_OPT_PIN_CORE ≠ 0 → env.sched_getaffinity_ok = true →
      0 < cpu_count env.affinity_mask → env.malloc_core_ids_ok = true →
      active_cores env options = (cpu_count env.affinity_mask : Int)) := by
  refine ⟨?_, ?_, active_cores_eq_cpu_count env options⟩
  · simp only [effective_nthreads]
    rw [if_pos h]
    rw [if_neg (fun hco => lt_irrefl _ hco.2)]
  · intro hnp
    have hci : core_ids env options = [] := by
      unfold core_ids
      rw [if_neg (fun hco => hco.1 hnp)]
    have hs := one_le_sys_ncores env
    simp only [active_cores, core_count, hci, List.length_nil]
    rw [if_neg (by omega), if_neg (by omega)]

/-- Witness for the amended C2: on `envMasked` without PIN_CORE,
`nthreads = 0` resolves to `active_cores = sys_ncores = 4`. -/
theorem default_nthreads_eq_active_cores_witness :
    effective_nthreads envMasked 0 0 = active_cores envMasked 0 ∧
    active_cores envMasked 0 = sys_ncores envMasked := by
  have h := default_nthreads_eq_active_cores envMasked 0 0 (by decide)
  exact ⟨h.1, h.2.1 (by decide)⟩

/-- Counterexample to claim C8 as stated: with PIN_CORE and a mask
`{1, 2}` read successfully, but the internal core-id list allocation
failing, worker 0 is assigned core `0 % active_cores = 0`, not
eligible-list entry `1`. -/
theorem pin_assignment_counterexample :
    chosen_core envMallocFail PARALLEL_OPT_PIN_CORE 0 = 0 ∧
    (enumerated_core_ids envMallocFail.affinity_mask).getD
      (0 % cpu_count envMallocFail.affinity_mask) 0 = 1 ∧
    chosen_core envMallocFail PARALLEL_OPT_PIN_CORE 0 ≠
      ((enumerated_core_ids envMallocFail.affinity_mask).getD
        (0 % cpu_count envMallocFail.affinity_mask) 0 : Int) := by
  decide

/-- Claim C8 amended: when PIN_CORE is requested, the affinity mask is
read successfully with at least one cpu set, and the core-id list
allocation succeeds, the eligible list is exactly the cpu ids set in the
mask in ascending order, and worker ordinal `t` is assigned the core at
eligible-list position `t mod (eligible count)`. -/
theorem pin_assignment_ascending_roundrobin (env : Env) (options : Nat)
    (t : Nat) (hpin : options &&& PARALLEL_OPT_PIN_CORE ≠ 0)
    (hok : env.sched_getaffinity_ok = true)
    (hcnt : 0 < cpu_count env.affinity_mask)
    (hmal : env.malloc_core_ids_ok = true) :
    core_ids env options = enumerated_core_ids env.affinity_mask ∧
    List.Sorted (· < ·) (core_ids env options) ∧
    (∀ cpu : Nat, cpu ∈ core_ids env options ↔
      cpu < CPU_SETSIZE ∧ cpuIsSet env.affinity_mask cpu = true) ∧
    chosen_core env options t =
      ((core_ids env options).getD (t % core_count env options) 0 : Int) := by
  have hci : core_ids env options = enumerated_core_ids env.affinity_mask := by
    unfold core_ids
    rw [if_pos ⟨hpin, hok, hcnt, hmal⟩]
  have hcc : 0 < core_count env options := by
    unfold core_count
    rw [hci]
    exact hcnt
  refine ⟨hci, ?_, ?_, ?_⟩
  · rw [hci]
    unfold enumerated_core_ids
    exact (List.pairwise_lt_range _).filter _
  · intro cpu
    rw [hci]
    unfold enumerated_core_ids
    rw [List.mem_filter, List.mem_range]
  · unfold chosen_core
    rw [if_pos hpin, if_pos hcc]

/-- Witness for the amended C8: mask `{1, 3, 4}`, worker 4 gets
eligible-list entry `4 mod 3 = 1`, i.e. core 3. -/
theorem pin_assignment_ascending_roundrobin_witness :
    chosen_core envMask5 PARALLEL_OPT_PIN_CORE 4 =
      ((core_ids envMask5 PARALLEL_OPT_PIN_CORE).getD
        (4 % core_count envMask5 PARALLEL_OPT_PIN_CORE) 0 : Int) ∧
    chosen_core envMask5 PARALLEL_OPT_PIN_CORE 4 = 3 := by
  have h := pin_assignment_ascending_roundrobin envMask5 PARALLEL_OPT_PIN_CORE 4
    (by decide) (by decide) (by decide) (by decide)
  exact ⟨h.2.2.2, by decide⟩

/-! ## Wrap-around executions -/

/-- Counterexample to claim C10 as stated: at `begin = 1`,
`end = 2^63 − 1`, `chunk = 2^63 − 1`, the second claim wraps the cursor
to `−2^63` and the worker executes the chunk `[−2^63, −1)`, passing
out-of-range indices such as `−5` to the callback. -/
theorem callback_indices_counterexample :
    (-5 : Int) ∈ (runSched (2 ^ 63 - 1) (norm_chunk (2 ^ 63 - 1))
      (initState 1 1) [0, 0, 0, 0]).log ∧
    ¬ ((1 : Int) ≤ -5) := by
  constructor
  · have hn : norm_chunk (2 ^ 63 - 1) = 2 ^ 63 - 1 := by decide
    rw [hn]
    have h3 : runSched (2 ^ 63 - 1) (2 ^ 63 - 1) (initState 1 1) [0, 0, 0]
        = ⟨-1, [WStatus.executing (-(2 ^ 63)) (-1)], []⟩ := by decide
    rw [show ([0, 0, 0, 0] : List Nat) = [0, 0, 0] ++ [0] from rfl,
      runSched_append, h3]
    simp only [runSched]
    have hwE : ([WStatus.executing (-(2 ^ 63)) (-1)] : List WStatus).getD 0
        WStatus.exited = WStatus.executing (-(2 ^ 63)) (-1) := rfl
    rw [worker_step_exec_mk hwE]
    show (-5 : Int) ∈ [] ++ execute_chunk (-(2 ^ 63)) (-1)
    rw [List.nil_append, execute_chunk_eq_intRange]
    exact mem_intRange_of (by decide) (by decide)
  · decide

/-- With `end = 2^63 − 1` and `chunk = 2^62`, a single worker whose
cursor sits on the wrapped 4-cycle `{1, 2^62+1, −2^63+1, −2^62+1}` never
observes `start ≥ end`: any number of claim/execute pairs is
productive. -/
theorem cycle_productive :
    ∀ (k : Nat) (x : Int) (l : List Int),
      (x = 1 ∨ x = 2 ^ 62 + 1 ∨ x = -(2 ^ 63) + 1 ∨ x = -(2 ^ 62) + 1) →
      productiveSched (2 ^ 63 - 1) (2 ^ 62) ⟨x, [WStatus.running], l⟩
        (List.replicate (2 * k) 0) = true := by
  intro k
  induction k with
  | zero =>
    intro x l _
    rfl
  | succ k ih =>
    intro x l hx
    have hrep : List.replicate (2 * (k + 1)) (0 : Nat)
        = 0 :: 0 :: List.replicate (2 * k) 0 := by
      have h2 : 2 * (k + 1) = (2 * k) + 1 + 1 := by ring
      rw [h2, List.replicate_succ, List.replicate_succ]
    have hlt : x < 2 ^ 63 - 1 := by
      rcases hx with h | h | h | h <;> omega
    have hwR : ([WStatus.running] : List WStatus).getD 0 WStatus.exited
        = WStatus.running := rfl
    have hwE : ([WStatus.executing x
        (branchless_min_long (wrap (x + 2 ^ 62)) (2 ^ 63 - 1))] :
          List WStatus).getD 0 WStatus.exited
        = WStatus.executing x
            (branchless_min_long (wrap (x + 2 ^ 62)) (2 ^ 63 - 1)) := rfl
    rw [hrep, productiveSched, Bool.and_eq_true]
    refine ⟨rfl, ?_⟩
    rw [worker_step_claim_mk hwR hlt]
    rw [show ([WStatus.running].set 0 (WStatus.executing x
        (branchless_min_long (wrap (x + 2 ^ 62)) (2 ^ 63 - 1))))
        = [WStatus.executing x
            (branchless_min_long (wrap (x + 2 ^ 62)) (2 ^ 63 - 1))] from rfl]
    rw [productiveSched, Bool.and_eq_true]
    refine ⟨rfl, ?_⟩
    rw [worker_step_exec_mk hwE]
    rw [show ([WStatus.executing x
        (branchless_min_long (wrap (x + 2 ^ 62)) (2 ^ 63 - 1))].set 0
          WStatus.running) = [WStatus.running] from rfl]
    refine ih (wrap (x + 2 ^ 62)) _ ?_
    rcases hx with h | h | h | h <;> subst h <;> decide

/-- Counterexample to claim C9 as stated: at `begin = 1`,
`end = 2^63 − 1`, `chunk = 2^62` the wrapped cursor cycles through
`{1, 2^62+1, −2^63+1, −2^62+1}` and `start ≥ end` never occurs: the
single worker's claim loop never exits, so productive schedules exceed
the claimed bound `2·(end − begin) + nthreads`. -/
theorem worker_claim_loops_counterexample :
    productiveSched (2 ^ 63 - 1) (norm_chunk (2 ^ 62)) (initState 1 1)
      (List.replicate (2 * 2 ^ 63) 0) = true ∧
    ¬ ((List.replicate (2 * 2 ^ 63) (0 : Nat)).length
        ≤ 2 * ((2 ^ 63 - 1 : Int) - 1).toNat + 1) := by
  constructor
  · have hn : norm_chunk (2 ^ 62) = 2 ^ 62 := by decide
    rw [hn]
    exact cycle_productive (2 ^ 63) 1 [] (Or.inl rfl)
  · rw [List.length_replicate]
    decide

/-- Climb engine for the wrap-around counterexamples: with worker 0
running and worker 1 exited, `k` productive claim/execute pairs advance
the cursor from `x` to `x + c·k`, only appending to the log, provided
every claim stays below `end` and no addition overflows. -/
theorem climb_run (e c : Int) (hc : 1 ≤ c) :
    ∀ (k : Nat) (x : Int) (L : List Int),
      -(2 ^ 63) ≤ x →
      x + c * (k : Int) < 2 ^ 63 →
      (∀ j : Nat, j < k → x + c * (j : Int) < e) →
      ∃ L' : List Int,
        runSched e c ⟨x, [WStatus.running, WStatus.exited], L⟩
          (List.replicate (2 * k) 0)
        = ⟨x + c * (k : Int), [WStatus.running, WStatus.exited], L ++ L'⟩ := by
  intro k
  induction k with
  | zero =>
    intro x L _ _ _
    refine ⟨[], ?_⟩
    simp [runSched]
  | succ k ih =>
    intro x L hx hup hprod
    have h0 : x < e := by
      have := hprod 0 (Nat.succ_pos k)
      simpa using this
    have hkc : 0 ≤ c * (k : Int) := mul_nonneg (by omega) (Int.ofNat_nonneg k)
    have hcast : ((k + 1 : Nat) : Int) = (k : Int) + 1 := by push_cast; ring
    have hmul : c * ((k : Int) + 1) = c * (k : Int) + c := by ring
    have hup' : x + (c * (k : Int) + c) < 2 ^ 63 := by
      rw [hcast, hmul] at hup
      omega
    have hwr : wrap (x + c) = x + c := wrap_eq_self (by omega) (by omega)
    have hrep : List.replicate (2 * (k + 1)) (0 : Nat)
        = 0 :: 0 :: List.replicate (2 * k) 0 := by
      have h2 : 2 * (k + 1) = (2 * k) + 1 + 1 := by ring
      rw [h2, List.replicate_succ, List.replicate_succ]
    have hwR : ([WStatus.running, WStatus.exited] : List WStatus).getD 0
        WStatus.exited = WStatus.running := rfl
    have hwE : ([WStatus.executing x (branchless_min_long (x + c) e),
        WStatus.exited] : List WStatus).getD 0 WStatus.exited
        = WStatus.executing x (branchless_min_long (x + c) e) := rfl
    rw [hrep, runSched, worker_step_claim_mk hwR h0, hwr]
    rw [show ([WStatus.running, WStatus.exited].set 0
        (WStatus.executing x (branchless_min_long (x + c) e)))
        = [WStatus.executing x (branchless_min_long (x + c) e),
           WStatus.exited] from rfl]
    rw [runSched, worker_step_exec_mk hwE]
    rw [show ([WStatus.executing x (branchless_min_long (x + c) e),
        WStatus.exited].set 0 WStatus.running)
        = [WStatus.running, WStatus.exited] from rfl]
    have hprod' : ∀ j : Nat, j < k → (x + c) + c * (j : Int) < e := by
      intro j hj
      have hj1 := hprod (j + 1) (by omega)
      have hcj : ((j + 1 : Nat) : Int) = (j : Int) + 1 := by push_cast; ring
      have hmj : c * ((j : Int) + 1) = c * (j : Int) + c := by ring
      rw [hcj, hmj] at hj1
      omega
    obtain ⟨L2, hL2⟩ := ih (x + c)
      (L ++ execute_chunk x (branchless_min_long (x + c) e))
      (by omega) (by omega) hprod'
    refine ⟨execute_chunk x (branchless_min_long (x + c) e) ++ L2, ?_⟩
    rw [hL2]
    congr 1
    · rw [hcast, hmul]
      ring
    · rw [List.append_assoc]

/-- Running `schedOverflow` from two workers over
`[2^63 − 10, 2^63 − 5)`: both workers end exited, and the log extends
`logPrefixOverflow` — which already contains the whole range once and the
out-of-range chunk `[−2^63+6, −2^63+14)`. -/
theorem schedOverflow_run : ∃ L' : List Int,
    runSched (2 ^ 63 - 5) 8 (initState (2 ^ 63 - 10) 2) schedOverflow
      = ⟨-(2 ^ 63) + 6, [WStatus.exited, WStatus.exited],
         logPrefixOverflow ++ L'⟩ := by
  have h5 : runSched (2 ^ 63 - 5) 8 (initState (2 ^ 63 - 10) 2) [0, 1, 0, 0, 0]
      = ⟨-(2 ^ 63) + 14, [WStatus.running, WStatus.exited],
         logPrefixOverflow⟩ := by
    decide
  obtain ⟨L', hL'⟩ := climb_run (2 ^ 63 - 5) 8 (by decide) 2305843009213693950
    (-(2 ^ 63) + 14) logPrefixOverflow (by decide) (by decide)
    (by intro j hj; omega)
  refine ⟨L', ?_⟩
  rw [show schedOverflow = [0, 1, 0, 0, 0]
      ++ (List.replicate (2 * 2305843009213693950) 0 ++ [0]) from rfl]
  rw [runSched_append, h5, runSched_append, hL']
  rw [show ((-(2 ^ 63) + 14) + 8 * ((2305843009213693950 : Nat) : Int))
      = 2 ^ 63 - 2 from by decide]
  have hwR : ([WStatus.running, WStatus.exited] : List WStatus).getD 0
      WStatus.exited = WStatus.running := rfl
  rw [runSched, worker_step_exit_mk hwR (by decide), runSched]
  rw [show wrap ((2 ^ 63 - 2) + 8) = -(2 ^ 63) + 6 from by decide]
  rw [show ([WStatus.running, WStatus.exited].set 0 WStatus.exited)
      = [WStatus.exited, WStatus.exited] from rfl]

/-- Counterexample to claim C1 as stated: `begin = 2^63 − 10`,
`end = 2^63 − 5`, `chunk = 8`, two workers.  The call returns success and
`schedOverflow` drives both workers to exit, yet worker 1's exit claim
wraps the cursor past LONG_MAX, worker 0 re-enters at `−2^63+6`, and the
final log contains that out-of-range index — so the log is not a
permutation of `[begin, end)`. -/
theorem visits_each_index_once_counterexample :
    (parallel_for (2 ^ 63 - 10) (2 ^ 63 - 5) 8 2 0 false envDefault).status = 0 ∧
    allExited (runSched (2 ^ 63 - 5) (norm_chunk 8)
      (initState (2 ^ 63 - 10)
        (parallel_for (2 ^ 63 - 10) (2 ^ 63 - 5) 8 2 0 false envDefault).spawned)
      schedOverflow) = true ∧
    ¬ (runSched (2 ^ 63 - 5) (norm_chunk 8)
        (initState (2 ^ 63 - 10)
          (parallel_for (2 ^ 63 - 10) (2 ^ 63 - 5) 8 2 0 false envDefault).spawned)
        schedOverflow).log.Perm (intRange (2 ^ 63 - 10) (2 ^ 63 - 5)) := by
  have hsp : (parallel_for (2 ^ 63 - 10) (2 ^ 63 - 5) 8 2 0 false
      envDefault).spawned = 2 := by decide
  have hn : norm_chunk 8 = 8 := by decide
  obtain ⟨L', hrun⟩ := schedOverflow_run
  rw [hsp, hn]
  refine ⟨by decide, ?_, ?_⟩
  · rw [hrun]
    rfl
  · rw [hrun]
    intro hperm
    have hmem : (-(2 ^ 63) + 6 : Int) ∈ logPrefixOverflow ++ L' := by
      apply List.mem_append_left
      unfold logPrefixOverflow
      exact List.mem_append_right _ (mem_intRange_of (by decide) (by decide))
    have hb := mem_intRange (hperm.mem_iff.mp hmem)
    exact absurd hb.1 (by decide)

/-- Counterexample to claim C6's retained-work conjunct as stated: after
a spawn failure leaves `k = 2` joined workers on
`[2^63 − 10, 2^63 − 5)` with chunk 8, the drained workers' complete
schedule `schedOverflow` wraps the cursor and the retained log contains
the out-of-range index `−2^63+6`: it is not a permutation of the
range. -/
theorem spawn_failure_retained_counterexample :
    (parallel_for (2 ^ 63 - 10) (2 ^ 63 - 5) 8 3 0 false
      envSpawnFail2).status = -3 ∧
    (parallel_for (2 ^ 63 - 10) (2 ^ 63 - 5) 8 3 0 false
      envSpawnFail2).spawned = 2 ∧
    allExited (runSched (2 ^ 63 - 5) (norm_chunk 8)
      (initState (2 ^ 63 - 10) 2) schedOverflow) = true ∧
    ¬ (runSched (2 ^ 63 - 5) (norm_chunk 8) (initState (2 ^ 63 - 10) 2)
        schedOverflow).log.Perm (intRange (2 ^ 63 - 10) (2 ^ 63 - 5)) := by
  have hn : norm_chunk 8 = 8 := by decide
  obtain ⟨L', hrun⟩ := schedOverflow_run
  rw [hn]
  refine ⟨by decide, by decide, ?_, ?_⟩
  · rw [hrun]
    rfl
  · rw [hrun]
    intro hperm
    have hmem : (-(2 ^ 63) + 6 : Int) ∈ logPrefixOverflow ++ L' := by
      apply List.mem_append_left
      unfold logPrefixOverflow
      exact List.mem_append_right _ (mem_intRange_of (by decide) (by decide))
    have hb := mem_intRange (hperm.mem_iff.mp hmem)
    exact absurd hb.1 (by decide)

end CoreParallel
